import Mathlib

/-!
Verification of the runtime behavior of the `MockApi` request-mock registrar
(src/index.ts) of the mock-types repository.

The executable core of the repository is the `MockApi` arrow function
(src/index.ts lines 229-260) together with the helper `mkQParams`
(lines 265-268).  All other code in the repository is type-level annotation
with no runtime effect.  The embedding below models:

  * strings as `List Char` (JavaScript strings, restricted to Unicode
    scalar values);
  * `String.prototype.replace` with a string pattern as `replaceFirst`
    (first occurrence only; the replacement values produced by
    `encodeURIComponent` never contain `$`, so no replacement-pattern
    expansion can occur);
  * `path.replaceAll("/", "\\/")` as `escapeSlashes`;
  * JavaScript `encodeURIComponent` as `encodeURIComponent` (unreserved
    ASCII characters kept, all other characters percent-encoded as
    uppercase-hex UTF-8 bytes);
  * `Object.entries(...)` of the `pathParam` / `query` objects as
    association lists in insertion order; the template-string rendering
    `` `${param}=${value}` `` of a query value is modeled by storing the
    value already rendered as a string;
  * the `page.route(regexp, handler)` call of the host as a
    `RouteRegistration` record holding the source text of the regular
    expression and the (constant) argument record that the handler passes
    to `route.fulfill` on every matched request;
  * `process.env.BASE_URL` as an `Option (List Char)`; JavaScript
    interpolates the absent value as the literal text "undefined".

For the claims about which request URLs a constructed matcher accepts, a
small model (`regexTest`) of JavaScript `RegExp.prototype.test` is
provided.  It is sound for the pattern shapes `MockApi` builds —
`^ <literal chars, backslash escapes, and the dot wildcard> $` — and the
theorems that use it restrict the characters of the base URL and path to
`regexSafe` characters (characters that a JavaScript regular expression
treats as literals) plus the deliberate `\/`, `\?` escapes and `.`.

The `new RegExp(...)` construction itself (src/index.ts line 250) throws a
SyntaxError when the pattern text is not a valid regular expression, e.g.
when an unescaped unmatched group parenthesis reaches the pattern through a
parameter value or the base URL.  `MockApiE` models registration including
that compile step: `regexSyntaxOk` checks unescaped-parenthesis balance,
which decides validity for the class-free, quantifier-free pattern text the
registrar builds.
-/

/-- Characters of a string literal. -/
def strL (s : String) : List Char := s.data

/-- The left-brace character of a `{name}` placeholder token. -/
def lbrace : Char := Char.ofNat 123

/-- The right-brace character of a `{name}` placeholder token. -/
def rbrace : Char := Char.ofNat 125

/-- `startsWith pat s` : `s` begins with the literal character sequence `pat`. -/
def startsWith : List Char → List Char → Bool
  | [], _ => true
  | _ :: _, [] => false
  | p :: ps, c :: cs => p == c && startsWith ps cs

/-- `hasSub pat s` : `pat` occurs as a contiguous substring of `s`
(`String.prototype.includes`). -/
def hasSub (pat : List Char) : List Char → Bool
  | [] => pat.isEmpty
  | c :: cs => startsWith pat (c :: cs) || hasSub pat cs

/-- JavaScript `s.replace(pat, rep)` with a string pattern: replace the first
occurrence of `pat` (if any) by `rep`.  An empty pattern matches at index 0,
as in JavaScript. -/
def replaceFirst (pat rep : List Char) : List Char → List Char
  | [] => if pat.isEmpty then rep else []
  | c :: cs =>
    if startsWith pat (c :: cs) then rep ++ (c :: cs).drop pat.length
    else c :: replaceFirst pat rep cs

/-- `path.replaceAll("/", "\\/")` : escape every forward slash for inclusion
in a regular expression. -/
def escapeSlashes : List Char → List Char
  | [] => []
  | c :: cs => if c == '/' then '\\' :: '/' :: escapeSlashes cs else c :: escapeSlashes cs

/-- The characters `encodeURIComponent` leaves unescaped:
`A-Z a-z 0-9 - _ . ! ~ * ' ( )`. -/
def isUnreserved (c : Char) : Bool :=
  c.isAlphanum || c == '-' || c == '_' || c == '.' || c == '!' || c == '~' ||
    c == '*' || c.toNat == 39 || c == '(' || c == ')'

/-- UTF-8 bytes of a Unicode scalar value. -/
def utf8Bytes (c : Char) : List Nat :=
  let n := c.toNat
  if n < 128 then [n]
  else if n < 2048 then [192 + n / 64, 128 + n % 64]
  else if n < 65536 then [224 + n / 4096, 128 + (n / 64) % 64, 128 + n % 64]
  else [240 + n / 262144, 128 + (n / 4096) % 64, 128 + (n / 64) % 64, 128 + n % 64]

/-- The sixteen uppercase hexadecimal digit characters. -/
def hexDigits : List Char := strL "0123456789ABCDEF"

/-- Uppercase hexadecimal digit of `n < 16`. -/
def hexDigit (n : Nat) : Char := hexDigits.getD n '0'

/-- Percent-encoding `%XY` of one byte. -/
def pctEncodeByte (b : Nat) : List Char := ['%', hexDigit (b / 16), hexDigit (b % 16)]

/-- `encodeURIComponent` on a single character. -/
def encodeChar (c : Char) : List Char :=
  if isUnreserved c then [c] else ((utf8Bytes c).map pctEncodeByte).flatten

/-- JavaScript `encodeURIComponent`. -/
def encodeURIComponent : List Char → List Char
  | [] => []
  | c :: cs => encodeChar c ++ encodeURIComponent cs

/-- The literal placeholder token `` `{${k}}` `` built inside the `reduce`
callback of `MockApi`. -/
def mkToken (k : List Char) : List Char := lbrace :: (k ++ [rbrace])

/-- The `pathString` computed at src/index.ts lines 243-248:
`Object.entries(pathParam || []).reduce((acc, [k, v]) =>
acc.replace(`{k}`, encodeURIComponent(v)), path.replaceAll("/", "\\/"))`. -/
def pathStringOf (path : List Char) (params : List (List Char × List Char)) : List Char :=
  params.foldl
    (fun acc kv => replaceFirst (mkToken kv.1) (encodeURIComponent kv.2) acc)
    (escapeSlashes path)

/-- `mkQParams` (src/index.ts lines 265-268):
`Object.entries(query).map(([param, value]) => `${param}=${value}`).join("&")`.
Values are stored already rendered by the template string. -/
def mkQParams (q : List (List Char × List Char)) : List Char :=
  List.intercalate (strL "&") (q.map (fun kv => kv.1 ++ '=' :: kv.2))

/-- The JSON values a descriptor's `json` field can carry. -/
inductive Json where
  | null : Json
  | bool : Bool → Json
  | num : Int → Json
  | str : List Char → Json
  | arr : List Json → Json
  | obj : List (List Char × Json) → Json

/-- The runtime content of a `MockApiArg` descriptor (src/index.ts lines
194-205): path, optional status, optional method, optional JSON body,
optional query mapping, optional path-parameter mapping. -/
structure MockApiArg where
  path : List Char
  status : Option Nat := none
  method : Option (List Char) := none
  json : Option Json := none
  query : Option (List (List Char × List Char)) := none
  pathParam : Option (List (List Char × List Char)) := none

/-- The argument record the registered handler passes to `route.fulfill`
(src/index.ts lines 254-258).  Fields not passed by the code would be `none`. -/
structure FulfillOptions where
  path : Option (List Char)
  json : Option Json
  status : Option Nat

/-- The observable outcome of one `MockApi` call: the source text of the
regular expression given to `page.route`, and the constant `route.fulfill`
argument record used by the handler on every matched request. -/
structure RouteRegistration where
  matcher : List Char
  fulfill : FulfillOptions

/-- Template-string interpolation of `process.env.BASE_URL`: an absent
environment value is rendered as the literal text "undefined". -/
def envString : Option (List Char) → List Char
  | some s => s
  | none => strL "undefined"

/-- The `MockApi` registrar (src/index.ts lines 229-260).  `baseURL` is the
value of `process.env.BASE_URL` at call time.  The matcher is
`` `^${BASE_URL}${pathString}${query === undefined ? "$" : `\?${mkQParams(query)}$`}` ``
and the handler fulfills every matched request with
`route.fulfill({ path, json, status: typeof status === "number" ? status : undefined })`.
This definition gives the pattern text and handler of the non-throwing
case; the compile step of the `new RegExp` call, which can throw, is
modeled by `MockApiE`. -/
def MockApi (baseURL : Option (List Char)) (arg : MockApiArg) : RouteRegistration :=
  { matcher :=
      '^' :: (envString baseURL ++
        (pathStringOf arg.path (arg.pathParam.getD []) ++
          (match arg.query with
           | none => ['$']
           | some q => '\\' :: '?' :: (mkQParams q ++ ['$']))))
  , fulfill :=
      { path := some arg.path
      , json := arg.json
      , status :=
          match arg.status with
          | some n => some n
          | none => none } }

/-- One token of the restricted regular-expression model: a literal
character or the `.` wildcard. -/
inductive RTok where
  | lit : Char → RTok
  | dot : RTok

/-- Whether one regex token accepts one character. -/
def tokMatch : RTok → Char → Bool
  | .lit d, c => d == c
  | .dot, _ => true

/-- Whether a quantifier-free token list accepts exactly a given string. -/
def toksMatch : List RTok → List Char → Bool
  | [], [] => true
  | [], _ :: _ => false
  | _ :: _, [] => false
  | t :: ts, c :: cs => tokMatch t c && toksMatch ts cs

/-- Tokenize the body of a constructed pattern: a backslash escapes the next
character to a literal, `.` is the wildcard, every other character is read
as a literal.  This is JavaScript regex semantics for the character set the
theorems below restrict to (`regexSafe` characters plus `\/`, `\?`, `.`). -/
def lexRegex : List Char → List RTok
  | [] => []
  | c :: rest =>
    if c == '\\' then
      match rest with
      | [] => []
      | d :: rest2 => .lit d :: lexRegex rest2
    else if c == '.' then .dot :: lexRegex rest
    else .lit c :: lexRegex rest

/-- Model of `RegExp.prototype.test` for the anchored patterns `MockApi`
builds: `^` followed by a token body followed by a final `$`. -/
def regexTest (pat url : List Char) : Bool :=
  match pat with
  | [] => false
  | c :: rest => c == '^' && toksMatch (lexRegex rest.dropLast) url

/-- Characters a JavaScript regular expression treats as literals (no
metacharacters; in particular no `.` `\` `$` `^` `?` `{` `}`). -/
def regexSafe (c : Char) : Bool :=
  c.isAlphanum || c == '/' || c == '-' || c == '_' || c == '%' || c == '=' ||
    c == '&' || c == ':' || c == ' '

/-- The spec's order of steps for building the substituted escaped path,
for the refinement comparison of claim C8: substitute the URL-encoded
parameter values into the raw path first, then escape the forward slashes. -/
def pathStringSpecOrder (path : List Char) (params : List (List Char × List Char)) : List Char :=
  escapeSlashes
    (params.foldl
      (fun acc kv => replaceFirst (mkToken kv.1) (encodeURIComponent kv.2) acc)
      path)

/-- `lastOk t` : the last character of `t` is not a backslash (vacuously
true for the empty list).  Tokens `{name}` always satisfy it. -/
def lastOk : List Char → Bool
  | [] => true
  | [c] => !(c == '\\')
  | _ :: c :: cs => lastOk (c :: cs)

/-- Descriptor with only a path (every optional field absent). -/
def mkArg (p : List Char) : MockApiArg := { path := p }

/-- Descriptor with a path and a supplied-but-empty query mapping. -/
def emptyQueryArg (p : List Char) : MockApiArg := { path := p, query := some [] }

/-- The JSON array body of the repository test's first mock:
`[{ id: 2, name: "pet-name" }]`. -/
def petsJson : Json :=
  Json.arr [Json.obj [(strL "id", Json.num 2), (strL "name", Json.str (strL "pet-name"))]]

/-- The repository test's first descriptor: `{ path: "/pets", json: [...] }`. -/
def petsArg : MockApiArg := { path := strL "/pets", json := some petsJson }

/-- Claim C5: for every descriptor in which the status field is not set, the
fulfillment call passes no status override to the host's fulfill-request. -/
theorem mockapi_default_status (b : Option (List Char)) (a : MockApiArg)
    (h : a.status = none) : (MockApi b a).fulfill.status = none := by
  simp [MockApi, h]

/-- Witness for C5 at the repository test's descriptor. -/
theorem mockapi_default_status_witness : (MockApi none petsArg).fulfill.status = none :=
  mockapi_default_status none petsArg rfl

/-- Claim C9: the runtime behavior of `MockApi` is independent of the
optional method field — two descriptors differing only in `method` produce
the same matcher and the same fulfillment arguments. -/
theorem mockapi_method_ignored (b : Option (List Char)) (a : MockApiArg)
    (m1 m2 : Option (List Char)) :
    MockApi b { a with method := m1 } = MockApi b { a with method := m2 } := rfl

/-- Claim C1 (evaluation at the failing input): at the repository test's own
descriptor `{ path: "/pets", json: [{id: 2, name: "pet-name"}] }`, the
handler's `route.fulfill` argument record is
`{ path: "/pets", json: <the array>, status: undefined }` — the descriptor's
URL path is passed as the fulfill `path` option (Playwright's file-path
option) in addition to the JSON body, so the fulfillment call does not
receive only the body and status. -/
theorem mockapi_fulfill_passes_path :
    (MockApi (some (strL "http://h")) petsArg).fulfill
      = { path := some (strL "/pets"), json := some petsJson, status := none } := rfl

/-- Claim C3: the matcher is the anchored concatenation of base URL and
substituted escaped path, followed by `$` directly when no query mapping is
supplied, and by `\?<key=value pairs joined by &>$` in mapping-iteration
order when one is; for the mapping `{a: 1, b: 2}` the pairing is `a=1&b=2`. -/
theorem mockapi_query_suffix :
    (∀ (b : Option (List Char)) (a : MockApiArg),
      (MockApi b a).matcher
        = '^' :: (envString b ++
            (pathStringOf a.path (a.pathParam.getD []) ++
              (match a.query with
               | none => ['$']
               | some q => '\\' :: '?' :: (mkQParams q ++ ['$'])))))
    ∧ mkQParams [(strL "a", strL "1"), (strL "b", strL "2")] = strL "a=1&b=2" :=
  ⟨fun _ _ => rfl, by decide⟩

/-! ### Helper lemmas about the embedded string operations -/

theorem escapeSlashes_cons_slash (cs : List Char) :
    escapeSlashes ('/' :: cs) = '\\' :: '/' :: escapeSlashes cs := by
  rw [escapeSlashes]
  simp

theorem escapeSlashes_cons_ne (c : Char) (cs : List Char) (h : (c == '/') = false) :
    escapeSlashes (c :: cs) = c :: escapeSlashes cs := by
  rw [escapeSlashes]
  simp [h]

theorem replaceFirst_of_not_hasSub (pat rep : List Char) :
    ∀ s : List Char, hasSub pat s = false → replaceFirst pat rep s = s := by
  intro s
  induction s with
  | nil =>
    intro h
    simp [hasSub] at h
    simp [replaceFirst, h]
  | cons c cs ih =>
    intro h
    simp only [hasSub, Bool.or_eq_false_iff] at h
    simp [replaceFirst, h.1, ih h.2]

theorem mem_escapeSlashes {c : Char} :
    ∀ {p : List Char}, c ∈ escapeSlashes p → c = '\\' ∨ c ∈ p := by
  intro p
  induction p with
  | nil => intro h; simp [escapeSlashes] at h
  | cons a as ih =>
    intro h
    by_cases ha : a == '/'
    · rw [show a = '/' from eq_of_beq ha] at h ⊢
      rw [escapeSlashes_cons_slash, List.mem_cons, List.mem_cons] at h
      rcases h with h | h | h
      · exact Or.inl h
      · exact Or.inr (by simp [h])
      · rcases ih h with h2 | h2
        · exact Or.inl h2
        · exact Or.inr (List.mem_cons_of_mem _ h2)
    · rw [escapeSlashes_cons_ne a as (by simpa using ha), List.mem_cons] at h
      rcases h with h | h
      · exact Or.inr (by simp [h])
      · rcases ih h with h2 | h2
        · exact Or.inl h2
        · exact Or.inr (List.mem_cons_of_mem _ h2)

theorem hasSub_token_of_no_lbrace (k rep : List Char) :
    ∀ {s : List Char}, lbrace ∉ s → replaceFirst (mkToken k) rep s = s := by
  intro s
  induction s with
  | nil => intro _; simp [replaceFirst, mkToken]
  | cons c cs ih =>
    intro h
    have hc : (lbrace == c) = false := by
      cases hb : lbrace == c with
      | false => rfl
      | true =>
        exact absurd (by simp [eq_of_beq hb] : lbrace ∈ c :: cs) h
    have hsw : startsWith (mkToken k) (c :: cs) = false := by
      simp [mkToken, startsWith, hc]
    simp [replaceFirst, hsw, ih (fun hm => h (List.mem_cons_of_mem _ hm))]

theorem pathStringOf_no_lbrace (p : List Char)
    (h : lbrace ∉ p) :
    ∀ params : List (List Char × List Char), pathStringOf p params = escapeSlashes p := by
  have hesc : lbrace ∉ escapeSlashes p := by
    intro hm
    rcases mem_escapeSlashes hm with h2 | h2
    · exact absurd h2 (by decide)
    · exact h h2
  intro params
  show params.foldl _ (escapeSlashes p) = escapeSlashes p
  induction params with
  | nil => rfl
  | cons kv rest ih =>
    simp only [List.foldl_cons]
    rw [hasSub_token_of_no_lbrace kv.1 _ hesc]
    exact ih

/-! ### Helper lemmas about the regular-expression model -/

theorem lexRegex_cons_lit (c : Char) (rest : List Char)
    (h1 : (c == '\\') = false) (h2 : (c == '.') = false) :
    lexRegex (c :: rest) = RTok.lit c :: lexRegex rest := by
  rw [lexRegex.eq_def]
  simp [h1, h2]

theorem lexRegex_cons_bs (d : Char) (rest : List Char) :
    lexRegex ('\\' :: d :: rest) = RTok.lit d :: lexRegex rest := by
  rw [lexRegex.eq_def]
  simp

theorem toksMatch_map_lit : ∀ l u : List Char, toksMatch (l.map RTok.lit) u = true ↔ l = u := by
  intro l
  induction l with
  | nil => intro u; cases u <;> simp [toksMatch]
  | cons c cs ih =>
    intro u
    cases u with
    | nil => simp [toksMatch]
    | cons d ds =>
      simp [toksMatch, tokMatch, Bool.and_eq_true, ih ds]

theorem regexSafe_not_bs {c : Char} (h : regexSafe c = true) : (c == '\\') = false := by
  cases hb : c == '\\' with
  | false => rfl
  | true =>
    have := eq_of_beq hb
    subst this
    exact absurd h (by decide)

theorem regexSafe_not_dot {c : Char} (h : regexSafe c = true) : (c == '.') = false := by
  cases hb : c == '.' with
  | false => rfl
  | true =>
    have := eq_of_beq hb
    subst this
    exact absurd h (by decide)

theorem lexRegex_safe (l : List Char) (h : ∀ c ∈ l, regexSafe c = true) (ys : List Char) :
    lexRegex (l ++ ys) = l.map RTok.lit ++ lexRegex ys := by
  induction l with
  | nil => simp
  | cons c cs ih =>
    have hc := h c (List.mem_cons_self c cs)
    rw [List.cons_append, lexRegex_cons_lit c _ (regexSafe_not_bs hc) (regexSafe_not_dot hc),
      ih (fun d hd => h d (List.mem_cons_of_mem _ hd))]
    simp

theorem lexRegex_escape (p : List Char) (h : ∀ c ∈ p, regexSafe c = true) (ys : List Char) :
    lexRegex (escapeSlashes p ++ ys) = p.map RTok.lit ++ lexRegex ys := by
  induction p with
  | nil => simp [escapeSlashes]
  | cons c cs ih =>
    have hc := h c (List.mem_cons_self c cs)
    have ihc := ih (fun d hd => h d (List.mem_cons_of_mem _ hd))
    by_cases hslash : c == '/'
    · rw [show c = '/' from eq_of_beq hslash]
      rw [escapeSlashes_cons_slash, List.cons_append, List.cons_append, lexRegex_cons_bs, ihc]
      simp
    · rw [escapeSlashes_cons_ne c cs (by simpa using hslash), List.cons_append,
        lexRegex_cons_lit c _ (regexSafe_not_bs hc) (regexSafe_not_dot hc), ihc]
      simp

theorem dropLast_append_single (xs : List Char) (a : Char) : (xs ++ [a]).dropLast = xs := by
  simp

theorem regexTest_lit_core (xs L url : List Char) (hx : lexRegex xs = L.map RTok.lit) :
    regexTest ('^' :: (xs ++ ['$'])) url = true ↔ url = L := by
  have hstep : regexTest ('^' :: (xs ++ ['$'])) url = toksMatch (L.map RTok.lit) url := by
    show ('^' == '^' && toksMatch (lexRegex (xs ++ ['$']).dropLast) url) = _
    rw [dropLast_append_single, hx]
    simp
  rw [hstep]
  constructor
  · intro h
    exact ((toksMatch_map_lit L url).mp h).symm
  · intro h
    subst h
    exact (toksMatch_map_lit _ _).mpr rfl

theorem lexRegex_base_path (b p : List Char)
    (hb : ∀ c ∈ b, regexSafe c = true) (hp : ∀ c ∈ p, regexSafe c = true) :
    lexRegex (b ++ escapeSlashes p) = (b ++ p).map RTok.lit := by
  rw [show b ++ escapeSlashes p = b ++ (escapeSlashes p ++ []) by simp]
  rw [lexRegex_safe b hb, lexRegex_escape p hp]
  simp [show lexRegex [] = ([] : List RTok) from rfl]

theorem regexTest_mockapi_plain (b p : List Char)
    (hb : ∀ c ∈ b, regexSafe c = true) (hp : ∀ c ∈ p, regexSafe c = true) (url : List Char) :
    regexTest (MockApi (some b) (mkArg p)).matcher url = true ↔ url = b ++ p := by
  have hm : (MockApi (some b) (mkArg p)).matcher = '^' :: ((b ++ escapeSlashes p) ++ ['$']) := by
    show '^' :: (b ++ (escapeSlashes p ++ ['$'])) = _
    rw [List.append_assoc]
  rw [hm]
  exact regexTest_lit_core _ _ _ (lexRegex_base_path b p hb hp)

/-! ### The claims settled against the embedding -/

/-- Claim C2: `MockApi` replaces the placeholder token `{key}` in the path
with the URL-encoded value for each entry of the path-parameter mapping:
`"/pets/{id}"` with `{id: "42"}` gives the substituted path `/pets/42` and
with `{id: "a b"}` gives `/pets/a%20b` (each then slash-escaped by step 2 of
the construction); a placeholder with no corresponding mapping entry (`{y}`
below, and every placeholder when the mapping is empty) is left untouched,
and an entry whose token does not occur in the (escaped) path changes
nothing. -/
theorem mockapi_path_param_subst :
    (pathStringOf (strL "/pets/{id}") [(strL "id", strL "42")]
        = escapeSlashes (strL "/pets/42"))
    ∧ (pathStringOf (strL "/pets/{id}") [(strL "id", strL "a b")]
        = escapeSlashes (strL "/pets/a%20b"))
    ∧ (pathStringOf (strL "/pets/{x}/{y}") [(strL "x", strL "1")]
        = escapeSlashes (strL "/pets/1/{y}"))
    ∧ (∀ p, pathStringOf p [] = escapeSlashes p)
    ∧ (∀ p k v, hasSub (mkToken k) (escapeSlashes p) = false →
        pathStringOf p [(k, v)] = escapeSlashes p) :=
  ⟨by decide, by decide, by decide, fun _ => rfl,
   fun p k v h => replaceFirst_of_not_hasSub (mkToken k) (encodeURIComponent v) _ h⟩

/-- Witness for C2: an entry whose placeholder is absent leaves the path
untouched. -/
theorem mockapi_path_param_subst_witness :
    pathStringOf (strL "/q") [(strL "id", strL "7")] = escapeSlashes (strL "/q") :=
  mockapi_path_param_subst.2.2.2.2 (strL "/q") (strL "id") (strL "7") (by decide)

/-- Claim C4: for every path containing no `{name}` placeholder (no brace
character at all) and every descriptor with no query mapping, the matcher is
exactly `^<base><escaped-path>$`, whatever the path-parameter mapping is. -/
theorem mockapi_no_placeholder_matcher (b : List Char) (a : MockApiArg)
    (hpath : lbrace ∉ a.path) (hq : a.query = none) :
    (MockApi (some b) a).matcher = '^' :: (b ++ (escapeSlashes a.path ++ ['$'])) := by
  simp [MockApi, hq, pathStringOf_no_lbrace a.path hpath, envString]

/-- Witness for C4 at a concrete descriptor (with a superfluous path
parameter, which changes nothing). -/
theorem mockapi_no_placeholder_matcher_witness :
    (MockApi (some (strL "http://h"))
        { path := strL "/pets", pathParam := some [(strL "id", strL "1")] }).matcher
      = '^' :: (strL "http://h" ++ (escapeSlashes (strL "/pets") ++ ['$'])) :=
  mockapi_no_placeholder_matcher (strL "http://h") _ (by decide) rfl

/-- Claim C6, counterexample: the paths `/a.b` and `/aXb` are different, yet
the matcher built for `/a.b` accepts the request URL targeted by `/aXb`: the
unescaped `.` in the path is a regex wildcard, so matchers for different
paths are not always disjoint. -/
theorem mockapi_cross_match_cex :
    (strL "/a.b" ≠ strL "/aXb")
    ∧ regexTest (MockApi (some (strL "b")) (mkArg (strL "/a.b"))).matcher (strL "b/aXb")
        = true :=
  ⟨by decide, by decide⟩

/-- Claim C6 (amended): for two descriptors with different paths (same base
URL, no query, no path parameters) whose base and paths consist only of
characters a regular expression treats as literals, the two matchers are
disjoint — neither accepts the request URL targeted by the other's path. -/
theorem mockapi_disjoint_matchers (b p1 p2 : List Char)
    (hb : ∀ c ∈ b, regexSafe c = true)
    (h1 : ∀ c ∈ p1, regexSafe c = true)
    (h2 : ∀ c ∈ p2, regexSafe c = true)
    (hne : p1 ≠ p2) :
    regexTest (MockApi (some b) (mkArg p1)).matcher (b ++ p2) = false
    ∧ regexTest (MockApi (some b) (mkArg p2)).matcher (b ++ p1) = false := by
  constructor
  · cases hc : regexTest (MockApi (some b) (mkArg p1)).matcher (b ++ p2) with
    | false => rfl
    | true =>
      have heq := (regexTest_mockapi_plain b p1 hb h1 (b ++ p2)).mp hc
      exact absurd (List.append_cancel_left heq).symm hne
  · cases hc : regexTest (MockApi (some b) (mkArg p2)).matcher (b ++ p1) with
    | false => rfl
    | true =>
      have heq := (regexTest_mockapi_plain b p2 hb h2 (b ++ p1)).mp hc
      exact absurd (List.append_cancel_left heq) hne

/-- Witness for the amended C6 at two concrete descriptors. -/
theorem mockapi_disjoint_matchers_witness :
    regexTest (MockApi (some (strL "u")) (mkArg (strL "/a"))).matcher (strL "u" ++ strL "/c")
        = false
    ∧ regexTest (MockApi (some (strL "u")) (mkArg (strL "/c"))).matcher (strL "u" ++ strL "/a")
        = false :=
  mockapi_disjoint_matchers (strL "u") (strL "/a") (strL "/c")
    (by decide) (by decide) (by decide) (by decide)

/-- Claim C10: with a supplied-but-empty query mapping the matcher ends in
`\?$` — it accepts exactly the request URLs that end in a literal `?` with
nothing after it — whereas the no-query matcher accepts exactly the bare
URL; the two matchers differ, and each rejects the other's URL. -/
theorem mockapi_empty_query (b p : List Char)
    (hb : ∀ c ∈ b, regexSafe c = true) (hp : ∀ c ∈ p, regexSafe c = true) :
    ((MockApi (some b) (emptyQueryArg p)).matcher
        = '^' :: (b ++ (escapeSlashes p ++ ['\\', '?', '$'])))
    ∧ (∀ url, regexTest (MockApi (some b) (emptyQueryArg p)).matcher url = true
        ↔ url = (b ++ p) ++ ['?'])
    ∧ ((MockApi (some b) (emptyQueryArg p)).matcher ≠ (MockApi (some b) (mkArg p)).matcher)
    ∧ (regexTest (MockApi (some b) (mkArg p)).matcher ((b ++ p) ++ ['?']) = false)
    ∧ (regexTest (MockApi (some b) (emptyQueryArg p)).matcher (b ++ p) = false) := by
  have e1 : (MockApi (some b) (emptyQueryArg p)).matcher
      = '^' :: (((b ++ escapeSlashes p) ++ ['\\', '?']) ++ ['$']) := by
    show '^' :: (b ++ (escapeSlashes p ++ ['\\', '?', '$'])) = _
    simp [List.append_assoc]
  have hx2 : lexRegex ((b ++ escapeSlashes p) ++ ['\\', '?'])
      = ((b ++ p) ++ ['?']).map RTok.lit := by
    rw [List.append_assoc, lexRegex_safe b hb, lexRegex_escape p hp]
    simp [show lexRegex ['\\', '?'] = [RTok.lit '?'] from rfl]
  have hchar : ∀ url, regexTest (MockApi (some b) (emptyQueryArg p)).matcher url = true
      ↔ url = (b ++ p) ++ ['?'] := by
    intro url
    rw [e1]
    exact regexTest_lit_core _ _ _ hx2
  refine ⟨rfl, hchar, ?_, ?_, ?_⟩
  · intro h
    have hm : (MockApi (some b) (mkArg p)).matcher
        = '^' :: ((b ++ escapeSlashes p) ++ ['$']) := by
      show '^' :: (b ++ (escapeSlashes p ++ ['$'])) = _
      rw [List.append_assoc]
    rw [e1, hm] at h
    have hlen := congrArg List.length h
    simp [List.length_append] at hlen
  · cases hc : regexTest (MockApi (some b) (mkArg p)).matcher ((b ++ p) ++ ['?']) with
    | false => rfl
    | true =>
      have heq := (regexTest_mockapi_plain b p hb hp _).mp hc
      have hlen := congrArg List.length heq
      simp [List.length_append] at hlen
  · cases hc : regexTest (MockApi (some b) (emptyQueryArg p)).matcher (b ++ p) with
    | false => rfl
    | true =>
      have heq := (hchar _).mp hc
      have hlen := congrArg List.length heq
      simp [List.length_append] at hlen

/-- Witness for C10: at base "u" and path "/p", the empty-query matcher
accepts `u/p?`. -/
theorem mockapi_empty_query_witness :
    regexTest (MockApi (some (strL "u")) (emptyQueryArg (strL "/p"))).matcher (strL "u/p?")
      = true := by
  have h := mockapi_empty_query (strL "u") (strL "/p") (by decide) (by decide)
  exact (h.2.1 (strL "u/p?")).mpr (by decide)

/-! ### Order of operations: escaping versus substitution (claim C8) -/

theorem replaceFirst_cons_pos (pat rep : List Char) (c : Char) (cs : List Char)
    (h : startsWith pat (c :: cs) = true) :
    replaceFirst pat rep (c :: cs) = rep ++ (c :: cs).drop pat.length := by
  simp [replaceFirst, h]

theorem replaceFirst_cons_neg (pat rep : List Char) (c : Char) (cs : List Char)
    (h : startsWith pat (c :: cs) = false) :
    replaceFirst pat rep (c :: cs) = c :: replaceFirst pat rep cs := by
  simp [replaceFirst, h]

theorem lastOk_append_single : ∀ (l : List Char) (c : Char), lastOk (l ++ [c]) = !(c == '\\')
  | [], _ => rfl
  | [_], _ => rfl
  | _ :: b :: l, c => lastOk_append_single (b :: l) c

theorem lastOk_mkToken (k : List Char) : lastOk (mkToken k) = true := by
  show lastOk ((lbrace :: k) ++ [rbrace]) = true
  rw [lastOk_append_single]
  decide

theorem startsWith_escape : ∀ t : List Char, ('/' : Char) ∉ t → lastOk t = true →
    ∀ s, startsWith t (escapeSlashes s) = startsWith t s := by
  intro t
  induction t with
  | nil => intro _ _ s; rfl
  | cons t0 ts ih =>
    intro hs hl s
    have ht0 : (t0 == '/') = false :=
      beq_eq_false_iff_ne.mpr (fun h => hs (by simp [h]))
    cases s with
    | nil => rfl
    | cons c cs =>
      by_cases hc : c = '/'
      · subst hc
        rw [escapeSlashes_cons_slash]
        by_cases hbs : t0 = '\\'
        · subst hbs
          cases ts with
          | nil => simp [lastOk] at hl
          | cons t1 ts2 =>
            have ht1 : (t1 == '/') = false :=
              beq_eq_false_iff_ne.mpr (fun h => hs (by simp [h]))
            show (('\\' == '\\') && startsWith (t1 :: ts2) ('/' :: escapeSlashes cs))
                = (('\\' == '/') && startsWith (t1 :: ts2) cs)
            simp [startsWith, ht1]
        · have hbs2 : (t0 == '\\') = false := beq_eq_false_iff_ne.mpr hbs
          show ((t0 == '\\') && _) = ((t0 == '/') && _)
          simp [hbs2, ht0]
      · rw [escapeSlashes_cons_ne c cs (beq_eq_false_iff_ne.mpr hc)]
        show ((t0 == c) && startsWith ts (escapeSlashes cs)) = ((t0 == c) && startsWith ts cs)
        cases ts with
        | nil => rfl
        | cons t1 ts2 =>
          rw [ih (fun h => hs (List.mem_cons_of_mem _ h)) hl cs]

theorem startsWith_iff : ∀ t s : List Char, startsWith t s = true ↔ ∃ r, s = t ++ r := by
  intro t
  induction t with
  | nil => exact fun s => ⟨fun _ => ⟨s, rfl⟩, fun _ => rfl⟩
  | cons t0 ts ih =>
    intro s
    cases s with
    | nil =>
      constructor
      · intro h; exact absurd h (by simp [startsWith])
      · rintro ⟨r, hr⟩; exact absurd hr (by simp)
    | cons c cs =>
      constructor
      · intro h
        rw [show startsWith (t0 :: ts) (c :: cs) = ((t0 == c) && startsWith ts cs) from rfl,
          Bool.and_eq_true] at h
        obtain ⟨he, hsw⟩ := h
        obtain ⟨r, hr⟩ := (ih cs).mp hsw
        exact ⟨r, by simp [hr, (eq_of_beq he).symm]⟩
      · rintro ⟨r, hr⟩
        injection hr with h1 h2
        show ((t0 == c) && startsWith ts cs) = true
        rw [Bool.and_eq_true]
        exact ⟨by simp [h1], (ih cs).mpr ⟨r, h2⟩⟩

theorem escapeSlashes_append (a b : List Char) :
    escapeSlashes (a ++ b) = escapeSlashes a ++ escapeSlashes b := by
  induction a with
  | nil => rfl
  | cons c cs ih =>
    by_cases hc : c = '/'
    · subst hc
      rw [List.cons_append, escapeSlashes_cons_slash, escapeSlashes_cons_slash, ih]
      rfl
    · rw [List.cons_append, escapeSlashes_cons_ne c _ (beq_eq_false_iff_ne.mpr hc),
        escapeSlashes_cons_ne c cs (beq_eq_false_iff_ne.mpr hc), ih, List.cons_append]

theorem escapeSlashes_of_no_slash : ∀ w : List Char, ('/' : Char) ∉ w → escapeSlashes w = w := by
  intro w
  induction w with
  | nil => intro _; rfl
  | cons c cs ih =>
    intro h
    have hc : c ≠ '/' := fun he => h (by simp [he])
    rw [escapeSlashes_cons_ne c cs (beq_eq_false_iff_ne.mpr hc),
      ih (fun hm => h (List.mem_cons_of_mem _ hm))]

theorem startsWith_not_bs_slash (t : List Char) (hs : ('/' : Char) ∉ t) (hl : lastOk t = true)
    (hne : t ≠ []) (xs : List Char) : startsWith t ('\\' :: '/' :: xs) = false := by
  cases t with
  | nil => exact absurd rfl hne
  | cons t0 ts =>
    by_cases hbs : t0 = '\\'
    · subst hbs
      cases ts with
      | nil => simp [lastOk] at hl
      | cons t1 ts2 =>
        have ht1 : (t1 == '/') = false :=
          beq_eq_false_iff_ne.mpr (fun h => hs (by simp [h]))
        simp [startsWith, ht1]
    · simp [startsWith, beq_eq_false_iff_ne.mpr hbs]

theorem startsWith_not_slash_head (t : List Char) (hs : ('/' : Char) ∉ t) (hne : t ≠ [])
    (xs : List Char) : startsWith t ('/' :: xs) = false := by
  cases t with
  | nil => exact absurd rfl hne
  | cons t0 ts =>
    have ht0 : (t0 == '/') = false :=
      beq_eq_false_iff_ne.mpr (fun h => hs (by simp [h]))
    simp [startsWith, ht0]

theorem replaceFirst_escape_comm (t w : List Char) (hst : ('/' : Char) ∉ t)
    (hlt : lastOk t = true) (hte : t ≠ []) (hw : ('/' : Char) ∉ w) :
    ∀ s, replaceFirst t w (escapeSlashes s) = escapeSlashes (replaceFirst t w s) := by
  intro s
  induction s with
  | nil =>
    have hemp : t.isEmpty = false := by
      cases t with
      | nil => exact absurd rfl hte
      | cons a l => rfl
    show replaceFirst t w (escapeSlashes []) = escapeSlashes (replaceFirst t w [])
    simp [replaceFirst, hemp, escapeSlashes]
  | cons c cs ih =>
    by_cases hc : c = '/'
    · subst hc
      rw [escapeSlashes_cons_slash,
        replaceFirst_cons_neg t w '\\' _ (startsWith_not_bs_slash t hst hlt hte _),
        replaceFirst_cons_neg t w '/' _ (startsWith_not_slash_head t hst hte _), ih,
        replaceFirst_cons_neg t w '/' cs (startsWith_not_slash_head t hst hte cs),
        escapeSlashes_cons_slash]
    · have hcb : (c == '/') = false := beq_eq_false_iff_ne.mpr hc
      rw [escapeSlashes_cons_ne c cs hcb]
      cases hsw : startsWith t (c :: cs) with
      | true =>
        have hsw2 : startsWith t (c :: escapeSlashes cs) = true := by
          have he := startsWith_escape t hst hlt (c :: cs)
          rw [escapeSlashes_cons_ne c cs hcb] at he
          rw [he, hsw]
        obtain ⟨r, hr⟩ := (startsWith_iff t (c :: cs)).mp hsw
        rw [replaceFirst_cons_pos t w c _ hsw2, replaceFirst_cons_pos t w c cs hsw]
        have hdropesc : (c :: escapeSlashes cs).drop t.length
            = escapeSlashes ((c :: cs).drop t.length) := by
          rw [show c :: escapeSlashes cs = escapeSlashes (c :: cs) from
            (escapeSlashes_cons_ne c cs hcb).symm, hr, escapeSlashes_append,
            escapeSlashes_of_no_slash t hst, List.drop_left, List.drop_left]
        rw [hdropesc, escapeSlashes_append, escapeSlashes_of_no_slash w hw]
      | false =>
        have hsw2 : startsWith t (c :: escapeSlashes cs) = false := by
          have he := startsWith_escape t hst hlt (c :: cs)
          rw [escapeSlashes_cons_ne c cs hcb] at he
          rw [he, hsw]
        rw [replaceFirst_cons_neg t w c _ hsw2, replaceFirst_cons_neg t w c cs hsw, ih,
          escapeSlashes_cons_ne c _ hcb]

theorem hexDigit_ne_slash (n : Nat) : hexDigit n ≠ '/' := by
  by_cases h : n < 16
  · exact (by decide : ∀ m, m < 16 → hexDigit m ≠ '/') n h
  · have hd : hexDigits.getD n '0' = '0' := by
      apply List.getD_eq_default
      have : hexDigits.length = 16 := by decide
      omega
    rw [hexDigit, hd]
    decide

theorem encodeChar_no_slash (c : Char) : ('/' : Char) ∉ encodeChar c := by
  intro hm
  by_cases h : isUnreserved c
  · rw [encodeChar, if_pos h] at hm
    simp at hm
    rw [← hm] at h
    exact absurd h (by decide)
  · rw [encodeChar, if_neg h] at hm
    rw [List.mem_flatten] at hm
    obtain ⟨blk, hblk, hmem⟩ := hm
    rw [List.mem_map] at hblk
    obtain ⟨b, _, rfl⟩ := hblk
    rw [show pctEncodeByte b = ['%', hexDigit (b / 16), hexDigit (b % 16)] from rfl,
      List.mem_cons, List.mem_cons, List.mem_singleton] at hmem
    rcases hmem with h1 | h1 | h1
    · exact absurd h1 (by decide)
    · exact absurd h1.symm (hexDigit_ne_slash _)
    · exact absurd h1.symm (hexDigit_ne_slash _)

theorem encodeURIComponent_no_slash : ∀ v : List Char, ('/' : Char) ∉ encodeURIComponent v := by
  intro v
  induction v with
  | nil => simp [encodeURIComponent]
  | cons c cs ih =>
    intro hm
    rw [show encodeURIComponent (c :: cs) = encodeChar c ++ encodeURIComponent cs from rfl,
      List.mem_append] at hm
    rcases hm with h | h
    · exact encodeChar_no_slash c h
    · exact ih h

theorem pathString_fold_comm :
    ∀ params : List (List Char × List Char),
      (∀ kv ∈ params, ('/' : Char) ∉ kv.1) →
      ∀ s : List Char,
        params.foldl
            (fun acc kv => replaceFirst (mkToken kv.1) (encodeURIComponent kv.2) acc)
            (escapeSlashes s)
          = escapeSlashes
              (params.foldl
                (fun acc kv => replaceFirst (mkToken kv.1) (encodeURIComponent kv.2) acc)
                s) := by
  intro params
  induction params with
  | nil => intro _ _; rfl
  | cons kv rest ih =>
    intro h s
    have hk : ('/' : Char) ∉ kv.1 := h kv (List.mem_cons_self _ _)
    have htok : ('/' : Char) ∉ mkToken kv.1 := by
      intro hm
      simp [mkToken] at hm
      rcases hm with h1 | h1 | h1
      · exact absurd h1 (by decide)
      · exact hk h1
      · exact absurd h1 (by decide)
    have hte : mkToken kv.1 ≠ [] := by simp [mkToken]
    simp only [List.foldl_cons]
    rw [replaceFirst_escape_comm (mkToken kv.1) (encodeURIComponent kv.2) htok
      (lastOk_mkToken kv.1) hte (encodeURIComponent_no_slash kv.2) s]
    exact ih (fun kv2 hkv2 => h kv2 (List.mem_cons_of_mem _ hkv2)) _

/-- Claim C8, counterexample: for the path `/x/{a/b}` with the single
path-parameter entry `a/b ↦ v`, escaping the slashes first (the
implementation's order) hides the token `{a/b}` — its slash has been turned
into `\/` — so the path is left unsubstituted, while the spec's
substitute-then-escape order substitutes it; the two orders disagree. -/
theorem mockapi_order_cex :
    pathStringOf (strL "/x/{a/b}") [(strL "a/b", strL "v")]
      ≠ pathStringSpecOrder (strL "/x/{a/b}") [(strL "a/b", strL "v")] := by decide

/-- Claim C8 (amended): for every path and every path-parameter mapping
whose keys contain no forward-slash character, escaping the slashes first
and then substituting the URL-encoded values (the implementation's order)
produces the same substituted escaped path as substituting first and then
escaping (the spec's order). -/
theorem mockapi_subst_order_equiv (p : List Char) (params : List (List Char × List Char))
    (h : ∀ kv ∈ params, ('/' : Char) ∉ kv.1) :
    pathStringOf p params = pathStringSpecOrder p params :=
  pathString_fold_comm params h p

/-- Witness for the amended C8 at the spec's own example. -/
theorem mockapi_subst_order_equiv_witness :
    pathStringOf (strL "/pets/{id}") [(strL "id", strL "a b")]
      = pathStringSpecOrder (strL "/pets/{id}") [(strL "id", strL "a b")] :=
  mockapi_subst_order_equiv (strL "/pets/{id}") [(strL "id", strL "a b")] (by decide)
